import Mathlib

/-!
A verification development for the DocuQA document chunking and hybrid
retrieval engine (the `DocuQAApp` React component).  The JavaScript core is
shallowly embedded: JavaScript strings are modelled as `List Char`, the
in-memory document database as a list of documents, and the fallible parts
(JavaScript `RegExp` compilation, which can throw a `SyntaxError`) as
`Option`-returning functions where `none` models a thrown exception.

The `RegExp` fragment used by `performVectorSearch` is modelled by a small
regular-expression engine covering exactly the constructs the development
reasons about: literal characters, the `.` wildcard (which in JavaScript
matches any character except a line terminator), and `(`/`)` grouping
(capture groups are irrelevant for counting, so groups are flattened);
patterns using any other metacharacter are treated as outside the modelled
fragment and fail to parse.  The `g`-flag match count of
`content.match(new RegExp(word, 'g'))` is modelled by `countMatches`:
repeatedly take the leftmost match, continue after it, and advance by one
character after an empty match, exactly as `String.prototype.match` does.
-/

namespace DocuQA

/-- JavaScript strings are modelled as lists of characters. -/
abbrev Str := List Char

/-- The JavaScript `\s` / trim whitespace class (the members relevant to
this development: space, tab, line feed, carriage return, vertical tab,
form feed, no-break space, BOM, and the two Unicode line separators). -/
def isJsWs (c : Char) : Bool :=
  c == ' ' || c == '\t' || c == '\n' || c == '\r' || c == '\x0b' || c == '\x0c' ||
    c.toNat == 0xa0 || c.toNat == 0xfeff || c.toNat == 0x2028 || c.toNat == 0x2029

/-- `String.prototype.trim`: drop whitespace from both ends. -/
def jsTrim (s : Str) : Str :=
  ((s.dropWhile isJsWs).reverse.dropWhile isJsWs).reverse

/-- `String.prototype.toLowerCase`, modelled character-wise (faithful on
the ASCII range, which is all this development evaluates it on). -/
def lowerStr (s : Str) : Str := s.map Char.toLower

/-- Worker for `splitWs`: a left-to-right scan.  `acc` is the current
field (reversed); the flag records that the scan is inside the whitespace
run of a separator already cut, so further whitespace extends that same
separator instead of opening a new one. -/
def splitWsAux : Str → Str → Bool → List Str
  | [], acc, _ => [acc.reverse]
  | c :: rest, acc, insep =>
    if insep && isJsWs c then splitWsAux rest acc true
    else if isJsWs c then acc.reverse :: splitWsAux rest [] true
    else splitWsAux rest (c :: acc) false

/-- `query.split(/\s+/)`: split on maximal runs of whitespace.  As in
JavaScript, a leading (resp. trailing) whitespace run produces a leading
(resp. trailing) empty field, and the empty string yields `[""]`. -/
def splitWs (s : Str) : List Str := splitWsAux s [] false

/-- The sentence-boundary characters of `text.split(/[.!?]\s+/)`. -/
def isSentEnd (c : Char) : Bool := c == '.' || c == '!' || c == '?'

/-- Worker for `splitSentences`: a boundary is one of `.`, `!`, `?`
followed by at least one whitespace character; the separator (punctuation
plus the greedy whitespace run) is removed.  The flag records that the
scan is inside the whitespace run of a separator already cut, whose
remaining whitespace is still being consumed. -/
def splitSentencesAux : Str → Str → Bool → List Str
  | [], acc, _ => [acc.reverse]
  | c :: rest, acc, insep =>
    if insep && isJsWs c then splitSentencesAux rest acc true
    else if isSentEnd c && (match rest with | r :: _ => isJsWs r | [] => false) then
      acc.reverse :: splitSentencesAux rest [] true
    else splitSentencesAux rest (c :: acc) false

/-- `text.split(/[.!?]\s+/)` from `splitTextIntoChunks`. -/
def splitSentences (s : Str) : List Str := splitSentencesAux s [] false

/-- The sentence-accumulation loop of `splitTextIntoChunks`: if appending
the next sentence would push the buffer over `chunkSize` and the buffer is
non-empty, flush the trimmed buffer; otherwise append the sentence (with a
separating space when the buffer is non-empty).  A final non-empty buffer
is flushed trimmed. -/
def buildChunksAux (chunkSize : Nat) : List Str → Str → List Str
  | [], cur => if cur.isEmpty then [] else [jsTrim cur]
  | sentence :: rest, cur =>
    if decide (chunkSize < cur.length + sentence.length) && !cur.isEmpty then
      jsTrim cur :: buildChunksAux chunkSize rest sentence
    else
      buildChunksAux chunkSize rest (if cur.isEmpty then sentence else cur ++ ' ' :: sentence)

/-- `splitTextIntoChunks(text, chunkSize)`: split into sentences, greedily
accumulate them into chunks of at most `chunkSize` characters (oversized
single sentences stay whole), and drop chunks of length at most 50. -/
def splitTextIntoChunks (text : Str) (chunkSize : Nat) : List Str :=
  (buildChunksAux chunkSize (splitSentences text) []).filter (fun c => decide (50 < c.length))

/-! ### The modelled `RegExp` fragment -/

/-- An atom of the modelled regular-expression fragment. -/
inductive RAtom
  | lit (c : Char)
  | dot
deriving DecidableEq

/-- Metacharacters outside the modelled fragment: a pattern containing one
of these is not given a semantics here. -/
def isRegexMeta (c : Char) : Bool :=
  c == '*' || c == '+' || c == '?' || c == '[' || c == ']' || c == '{' || c == '}' ||
    c == '|' || c == '^' || c == '$' || c == '\\'

/-- Parse a pattern at a given group-nesting depth.  `(` opens a group and
`)` closes one; an unterminated `(` or an unmatched `)` is a
`SyntaxError`, modelled as `none`, exactly as `new RegExp` throws. -/
def parseRegexAux : Str → Nat → Option (List RAtom)
  | [], depth => if depth = 0 then some [] else none
  | c :: rest, depth =>
    if c = '(' then parseRegexAux rest (depth + 1)
    else if c = ')' then
      match depth with
      | 0 => none
      | d + 1 => parseRegexAux rest d
    else if c = '.' then (parseRegexAux rest depth).map (fun r => RAtom.dot :: r)
    else if isRegexMeta c then none
    else (parseRegexAux rest depth).map (fun r => RAtom.lit c :: r)

/-- `new RegExp(pattern)` on the modelled fragment. -/
def parseRegex (pattern : Str) : Option (List RAtom) := parseRegexAux pattern 0

/-- JavaScript line terminators, which `.` does not match. -/
def isLineTerminator (c : Char) : Bool :=
  c == '\n' || c == '\r' || c.toNat == 0x2028 || c.toNat == 0x2029

/-- Match a pattern at the start of `s`; on success return the remainder.
Each atom consumes exactly one character. -/
def matchAt : List RAtom → Str → Option Str
  | [], s => some s
  | _ :: _, [] => none
  | RAtom.lit c :: r, x :: s => if x = c then matchAt r s else none
  | RAtom.dot :: r, x :: s => if isLineTerminator x then none else matchAt r s

/-- Fuelled worker for `countMatches`.  Every recursive call consumes at
least one character of `s`, so any fuel exceeding `s.length` makes the
zero-fuel branch unreachable; the fuel only makes the recursion
structural. -/
def countMatchesF (r : List RAtom) : Nat → Str → Nat
  | 0, _ => 0
  | fuel + 1, s =>
    match s with
    | [] => if (matchAt r []).isSome then 1 else 0
    | c :: cs =>
      if (matchAt r (c :: cs)).isSome then
        if r.isEmpty then 1 + countMatchesF r fuel cs
        else 1 + countMatchesF r fuel ((c :: cs).drop r.length)
      else countMatchesF r fuel cs

/-- The number of matches found by `s.match(re)` with the `g` flag:
successive non-overlapping leftmost matches, advancing one character past
an empty match. -/
def countMatches (r : List RAtom) (s : Str) : Nat := countMatchesF r (s.length + 1) s

/-- `(content.match(new RegExp(word, 'g')) || []).length`: `none` models
the `SyntaxError` thrown by `new RegExp` on an invalid pattern. -/
def regexCountG (pattern : Str) (s : Str) : Option Nat :=
  (parseRegex pattern).map (fun r => countMatches r s)

/-- Fuelled worker for `countOccur`, mirroring `countMatchesF` step for
step with literal prefix tests in place of regex matching. -/
def countOccurF (pat : Str) : Nat → Str → Nat
  | 0, _ => 0
  | fuel + 1, s =>
    match s with
    | [] => if pat.isEmpty then 1 else 0
    | c :: cs =>
      if pat.isPrefixOf (c :: cs) then
        if pat.isEmpty then 1 + countOccurF pat fuel cs
        else 1 + countOccurF pat fuel ((c :: cs).drop pat.length)
      else countOccurF pat fuel cs

/-- The number of non-overlapping literal occurrences of `pat` in a
string, scanning left to right (the counting the specification describes
for the Term-Frequency Scorer). -/
def countOccur (pat : Str) (s : Str) : Nat := countOccurF pat (s.length + 1) s

/-! ### The data model -/

/-- The `metadata` record attached to every chunk by `processDocument`. -/
structure ChunkMeta where
  filename : Str
  chunk_index : Nat
  total_chunks : Nat
deriving DecidableEq

/-- A chunk as produced by `processDocument`:
`{ id, content, source, metadata }`. -/
structure Chunk where
  id : Str
  content : Str
  source : Str
  metadata : ChunkMeta
deriving DecidableEq

/-- A processed document of `documentDatabase` / `uploadedFiles`. -/
structure Document where
  name : Str
  dtype : Str
  size : Nat
  chunks : List Chunk
  processed : Bool
deriving DecidableEq

/-- A search result.  `performVectorSearch` returns chunk copies with a
`score` field spread in (`some n`); `performKeywordSearch` returns the
stored chunk objects, which carry no `score` field (`none`). -/
structure ScoredResult where
  chunk : Chunk
  score : Option Nat
deriving DecidableEq

/-- `documentDatabase.flatMap(doc => doc.chunks || [])`: the corpus. -/
def allChunksOf (db : List Document) : List Chunk := db.flatMap Document.chunks

/-- Decimal digit character, for the template literal of chunk ids. -/
def digitChar (d : Nat) : Char := Char.ofNat (48 + d)

/-- Fuelled worker for `natToDigits`: each step divides by ten, so fuel
`n + 1` always suffices and the zero-fuel branch is unreachable. -/
def natToDigitsF : Nat → Nat → Str
  | 0, _ => []
  | fuel + 1, n =>
    if n < 10 then [digitChar n]
    else natToDigitsF fuel (n / 10) ++ [digitChar (n % 10)]

/-- Decimal representation of a natural number, as produced by the
JavaScript template literal `${index}`. -/
def natToDigits (n : Nat) : Str := natToDigitsF (n + 1) n

/-- Decode a digit string back to a natural number (used to show decimal
printing is injective). -/
def decodeDigits (s : Str) : Nat := s.foldl (fun a c => 10 * a + (c.toNat - 48)) 0

/-- The infix of every chunk id. -/
def chunkSep : Str := "_chunk_".toList

/-- The chunk id template literal `` `${file.name}_chunk_${index}` ``. -/
def mkId (name : Str) (idx : Nat) : Str := name ++ chunkSep ++ natToDigits idx

/-- `chunks.map((chunk, index) => ({ id, content, source, metadata }))`
from `processDocument`. -/
def buildChunkObjs (name : Str) (total : Nat) : Nat → List Str → List Chunk
  | _, [] => []
  | i, c :: cs =>
    { id := mkId name i, content := c, source := name,
      metadata := { filename := name, chunk_index := i, total_chunks := total } } ::
      buildChunkObjs name total (i + 1) cs

/-- An uploaded file after the base64 decode step (the decode is the
identity on the text content, so the decoded text is taken directly). -/
structure UploadFile where
  name : Str
  ftype : Str
  size : Nat
  content : Str
deriving DecidableEq

/-- `processDocument`: PDFs are stored unprocessed with no chunks; text
files are chunked with `targetSize = 500` and marked processed. -/
def processDocument (f : UploadFile) : Document :=
  if f.ftype = "application/pdf".toList then
    { name := f.name, dtype := f.ftype, size := f.size, chunks := [], processed := false }
  else
    let chunks := splitTextIntoChunks f.content 500
    { name := f.name, dtype := f.ftype, size := f.size,
      chunks := buildChunkObjs f.name chunks.length 0 chunks, processed := true }

/-- The whole UI-facing state the retrieval core mutates. -/
structure AppState where
  uploadedFiles : List Document
  documentDatabase : List Document
deriving DecidableEq

/-- The file-type gate of `handleFileUpload`. -/
def isSupportedFile (f : UploadFile) : Bool :=
  f.ftype == "application/pdf".toList || f.ftype == "text/plain".toList ||
    ".txt".toList.isSuffixOf f.name

/-- One iteration of the upload loop of `handleFileUpload`: a supported
file is processed and appended to `uploadedFiles`, and additionally to
`documentDatabase` when it was processed locally.  No name check of any
kind is performed. -/
def uploadFile (st : AppState) (f : UploadFile) : AppState :=
  if isSupportedFile f then
    let d := processDocument f
    { uploadedFiles := st.uploadedFiles ++ [d],
      documentDatabase := if d.processed then st.documentDatabase ++ [d] else st.documentDatabase }
  else st

/-- `handleFileUpload` over its file list. -/
def handleFileUpload (st : AppState) (files : List UploadFile) : AppState :=
  files.foldl uploadFile st

/-- `removeFile(indexToRemove)`: look up the file by index (an invalid
index makes the JavaScript dereference `fileToRemove.name` throw, modelled
as `none`), drop that index from `uploadedFiles`, and drop every document
with that name from `documentDatabase`. -/
def removeFile (st : AppState) (idx : Nat) : Option AppState :=
  match st.uploadedFiles[idx]? with
  | none => none
  | some fileToRemove =>
    some { uploadedFiles := st.uploadedFiles.eraseIdx idx,
           documentDatabase := st.documentDatabase.filter (fun d => d.name != fileToRemove.name) }

/-! ### The three search strategies and the facade -/

/-- `Option`-valued `map` over a list, stopping at the first failure (the
first thrown exception). -/
def mapOpt (f : α → Option β) : List α → Option (List β)
  | [] => some []
  | x :: xs =>
    match f x with
    | none => none
    | some y => (mapOpt f xs).map (fun ys => y :: ys)

/-- The `queryWords.reduce((acc, word) => acc + matches, 0)` score of one
chunk; `none` models the `SyntaxError` thrown on an invalid term. -/
def chunkScore (terms : List Str) (content : Str) : Option Nat :=
  (mapOpt (fun t => regexCountG t content) terms).map (fun ns => ns.foldl (· + ·) 0)

/-- The descending-score ordering used by `.sort((a, b) => b.score - a.score)`. -/
def scoreRel (a b : Chunk × Nat) : Prop := b.2 ≤ a.2

instance : DecidableRel scoreRel := fun a b => Nat.decLe b.2 a.2

instance : IsTotal (Chunk × Nat) scoreRel := ⟨fun a b => Nat.le_total b.2 a.2⟩

instance : IsTrans (Chunk × Nat) scoreRel := ⟨fun _ _ _ hab hbc => Nat.le_trans hbc hab⟩

/-- The `scoredChunks` array of `performVectorSearch`: every corpus chunk
paired with its score, in corpus order; `none` if scoring threw. -/
def vectorScored (db : List Document) (query : Str) : Option (List (Chunk × Nat)) :=
  let queryWords := splitWs (lowerStr query)
  mapOpt (fun c => (chunkScore queryWords (lowerStr c.content)).map (fun n => (c, n)))
    (allChunksOf db)

/-- JavaScript's `Array.prototype.sort` is stable, so the comparator
`(a, b) => b.score - a.score` produces exactly the stable descending
order, which insertion sort under `scoreRel` computes. -/
def sortByScoreDesc (l : List (Chunk × Nat)) : List (Chunk × Nat) :=
  List.insertionSort scoreRel l

/-- `performVectorSearch(query, k)`: empty corpus short-circuits to `[]`
(before any regex is compiled); otherwise score every chunk, keep the
positive scores, sort descending (stable), and take the first `k`. -/
def performVectorSearch (db : List Document) (query : Str) (k : Nat) :
    Option (List ScoredResult) :=
  if (allChunksOf db).isEmpty then some []
  else
    (vectorScored db query).map (fun sc =>
      ((sortByScoreDesc (sc.filter (fun p => decide (0 < p.2)))).take k).map
        (fun p => { chunk := p.1, score := some p.2 }))

/-- `hay.includes(needle)` (after both sides are lower-cased by the
caller): contiguous substring containment. -/
def jsIncludes (needle : Str) : Str → Bool
  | [] => needle.isEmpty
  | c :: cs => needle.isPrefixOf (c :: cs) || jsIncludes needle cs

/-- `performKeywordSearch(query, k)`: case-insensitive substring filter in
corpus order, truncated to `k`.  The returned objects are the stored
chunks themselves: no score and no strategy tag is attached. -/
def performKeywordSearch (db : List Document) (query : Str) (k : Nat) : List ScoredResult :=
  if (allChunksOf db).isEmpty then []
  else
    (((allChunksOf db).filter
        (fun c => jsIncludes (lowerStr query) (lowerStr c.content))).take k).map
      (fun c => { chunk := c, score := none })

/-- Generic first-occurrence deduplication over a key, the semantics of
`combined.filter((item, index, self) => self.findIndex(t => t.id === item.id) === index)`:
an element is kept iff no earlier element has the same key. -/
def dedupAux (key : ScoredResult → κ) [DecidableEq κ] :
    List ScoredResult → List κ → List ScoredResult
  | [], _ => []
  | x :: xs, seen =>
    if key x ∈ seen then dedupAux key xs seen
    else x :: dedupAux key xs (key x :: seen)

/-- The deduplication performed by `performHybridSearch`: by `id`. -/
def dedupById (l : List ScoredResult) : List ScoredResult :=
  dedupAux (fun r => r.chunk.id) l []

/-- The chunk identity of the specification: (document name, chunk index). -/
def chunkKey (c : Chunk) : Str × Nat := (c.source, c.metadata.chunk_index)

/-- Deduplication by chunk identity, the specification's wording; shown
to coincide with `dedupById` on well-formed corpora. -/
def dedupByIdentity (l : List ScoredResult) : List ScoredResult :=
  dedupAux (fun r => chunkKey r.chunk) l []

/-- `performHybridSearch(query, k)`: both scorers at full budget `k`,
term-frequency results first, deduplicated by `id` keeping the first
occurrence, truncated to `k`.  `none` models the propagated regex error. -/
def performHybridSearch (db : List Document) (query : Str) (k : Nat) :
    Option (List ScoredResult) :=
  (performVectorSearch db query k).map (fun v =>
    (dedupById (v ++ performKeywordSearch db query k)).take k)

/-- The observable outcome of `performSearch`. -/
inductive SearchOutcome
  | noSearch
  | regexError
  | results (rs : List ScoredResult)
deriving DecidableEq

/-- Lift a possibly-throwing search into an outcome. -/
def liftSearch : Option (List ScoredResult) → SearchOutcome
  | none => SearchOutcome.regexError
  | some rs => SearchOutcome.results rs

/-- `performSearch(query)` with the ambient `searchMode`: a blank query
returns without searching; otherwise the `switch` dispatches `'vector'`
and `'keyword'` to their scorers and **everything else** — `'smart'`
together with the `default:` label — to the hybrid search, always with
`k = 5`. -/
def performSearch (db : List Document) (searchMode : Str) (query : Str) : SearchOutcome :=
  if (jsTrim query).isEmpty then SearchOutcome.noSearch
  else if searchMode = "vector".toList then liftSearch (performVectorSearch db query 5)
  else if searchMode = "keyword".toList then
    SearchOutcome.results (performKeywordSearch db query 5)
  else liftSearch (performHybridSearch db query 5)

/-! ### Specification-side definitions for the corrected claims -/

/-- A character treated literally both by JavaScript `RegExp` and by the
modelled fragment. -/
def isPlainChar (c : Char) : Bool :=
  !(c == '(' || c == ')' || c == '.' || isRegexMeta c)

/-- The literal-occurrence score of the specification: the sum over the
query terms of the non-overlapping literal occurrence counts. -/
def litChunkScore (terms : List Str) (content : Str) : Nat :=
  (terms.map (fun t => countOccur t content)).foldl (· + ·) 0

/-- Modelled from the spec: the Term-Frequency Scorer as the specification
describes it, counting literal occurrences instead of regex matches.  The
claim C2 is settled by comparing `performVectorSearch` against this. -/
def specVectorSearch (db : List Document) (query : Str) (k : Nat) : List ScoredResult :=
  let terms := splitWs (lowerStr query)
  let scored := (allChunksOf db).map (fun c => (c, litChunkScore terms (lowerStr c.content)))
  ((sortByScoreDesc (scored.filter (fun p => decide (0 < p.2)))).take k).map
    (fun p => { chunk := p.1, score := some p.2 })

/-- A chunk is well formed when its `id` is the template literal built
from its source name and chunk index, as `processDocument` creates it. -/
def wfChunk (c : Chunk) : Prop := c.id = mkId c.source c.metadata.chunk_index

instance : DecidablePred wfChunk := fun c =>
  inferInstanceAs (Decidable (c.id = mkId c.source c.metadata.chunk_index))

/-- A corpus is well formed when every chunk is. -/
def wfCorpus (db : List Document) : Prop := ∀ c ∈ allChunksOf db, wfChunk c

instance : DecidablePred wfCorpus := fun db =>
  inferInstanceAs (Decidable (∀ c ∈ allChunksOf db, wfChunk c))

/-- Every chunk's back-reference names its owning document (established by
`processDocument`, preserved by upload and removal). -/
def sourceInv (db : List Document) : Prop :=
  ∀ d ∈ db, ∀ c ∈ d.chunks, c.source = d.name

instance : DecidablePred sourceInv := fun db =>
  inferInstanceAs (Decidable (∀ d ∈ db, ∀ c ∈ d.chunks, c.source = d.name))

/-! ### Concrete corpora used by counterexamples and witnesses -/

/-- A realistic chunk mentioning "alpha", with the id `processDocument`
would give it. -/
def chunkAlpha : Chunk :=
  { id := "a.txt_chunk_0".toList,
    content := "The alpha protocol document describes the launch procedure in detail.".toList,
    source := "a.txt".toList,
    metadata := { filename := "a.txt".toList, chunk_index := 0, total_chunks := 1 } }

/-- The document owning `chunkAlpha`. -/
def docAlpha : Document :=
  { name := "a.txt".toList, dtype := "text/plain".toList, size := 70,
    chunks := [chunkAlpha], processed := true }

/-- A one-document corpus. -/
def dbAlpha : List Document := [docAlpha]

/-- The chunk of the specification's Scenario 2. -/
def chunkRevenue : Chunk :=
  { id := "r.txt_chunk_0".toList,
    content := "The quarterly revenue grew by 12 percent this year.".toList,
    source := "r.txt".toList,
    metadata := { filename := "r.txt".toList, chunk_index := 0, total_chunks := 1 } }

/-- The corpus of the specification's Scenario 2. -/
def dbRevenue : List Document :=
  [{ name := "r.txt".toList, dtype := "text/plain".toList, size := 51,
     chunks := [chunkRevenue], processed := true }]

/-- A chunk whose content `"xy"` contains no literal dot. -/
def chunkXY : Chunk :=
  { id := "x.txt_chunk_0".toList, content := "xy".toList, source := "x.txt".toList,
    metadata := { filename := "x.txt".toList, chunk_index := 0, total_chunks := 1 } }

/-- Corpus for the C2 counterexample. -/
def dbXY : List Document :=
  [{ name := "x.txt".toList, dtype := "text/plain".toList, size := 2,
     chunks := [chunkXY], processed := true }]

/-- A chunk whose content `"qw"` contains neither a dot nor a parenthesis. -/
def chunkQW : Chunk :=
  { id := "q.txt_chunk_0".toList, content := "qw".toList, source := "q.txt".toList,
    metadata := { filename := "q.txt".toList, chunk_index := 0, total_chunks := 1 } }

/-- Corpus for the C9 theorem. -/
def dbQW : List Document :=
  [{ name := "q.txt".toList, dtype := "text/plain".toList, size := 2,
     chunks := [chunkQW], processed := true }]

/-- Two chunks with different "beta" term frequencies, for the C7 witness. -/
def chunkBeta1 : Chunk :=
  { id := "b.txt_chunk_0".toList,
    content := "The beta milestone report covers the first release cycle.".toList,
    source := "b.txt".toList,
    metadata := { filename := "b.txt".toList, chunk_index := 0, total_chunks := 2 } }

/-- Second beta chunk, mentioning "beta" twice. -/
def chunkBeta2 : Chunk :=
  { id := "b.txt_chunk_1".toList,
    content := "The beta survey shows beta adoption doubled over the quarter.".toList,
    source := "b.txt".toList,
    metadata := { filename := "b.txt".toList, chunk_index := 1, total_chunks := 2 } }

/-- The document owning the two beta chunks. -/
def docBeta : Document :=
  { name := "b.txt".toList, dtype := "text/plain".toList, size := 120,
    chunks := [chunkBeta1, chunkBeta2], processed := true }

/-- Corpus for the C7 witness: `chunkBeta1` first in corpus order. -/
def dbBeta : List Document := [docBeta]

/-- A small text upload named `a.txt`. -/
def fileA : UploadFile :=
  { name := "a.txt".toList, ftype := "text/plain".toList, size := 5,
    content := "hello".toList }

/-- The initial state. -/
def emptyState : AppState := { uploadedFiles := [], documentDatabase := [] }

/-- A state holding `docAlpha`, for the C8 witness. -/
def stateAlpha : AppState := { uploadedFiles := [docAlpha], documentDatabase := [docAlpha] }

/-- A state holding two documents, for the C8 witness. -/
def stateTwo : AppState :=
  { uploadedFiles := [docAlpha, docBeta], documentDatabase := [docAlpha, docBeta] }

/-- `stateTwo` after `removeFile(0)` deletes `a.txt`. -/
def stateTwoAfter : AppState := { uploadedFiles := [docBeta], documentDatabase := [docBeta] }

/-- The result list both scorers produce for query `"alpha"` on `dbAlpha`. -/
def resAlpha : List ScoredResult := [{ chunk := chunkAlpha, score := some 1 }]

/-- The vector-search output for query `"beta"` on `dbBeta`. -/
def outBeta : List ScoredResult :=
  [{ chunk := chunkBeta2, score := some 2 }, { chunk := chunkBeta1, score := some 1 }]

/-- The `scoredChunks` array for query `"beta"` on `dbBeta` (corpus order). -/
def scBeta : List (Chunk × Nat) := [(chunkBeta1, 1), (chunkBeta2, 2)]

/-! ## Supporting lemmas -/

/-- The first element surviving `dropWhile` fails the predicate. -/
theorem dropWhile_head_false {α : Type} (p : α → Bool) (l : List α) (x : α) (xs : List α)
    (h : l.dropWhile p = x :: xs) : p x = false := by
  induction l with
  | nil => simp [List.dropWhile] at h
  | cons a t ih =>
    by_cases hpa : p a = true
    · rw [List.dropWhile_cons_of_pos hpa] at h
      exact ih h
    · rw [List.dropWhile_cons_of_neg (by simpa using hpa)] at h
      cases h
      simpa using hpa

/-- `dropWhile` is idempotent. -/
theorem dropWhile_idem {α : Type} (p : α → Bool) (l : List α) :
    (l.dropWhile p).dropWhile p = l.dropWhile p := by
  cases h : l.dropWhile p with
  | nil => simp
  | cons x xs =>
    have hx := dropWhile_head_false p l x xs h
    rw [List.dropWhile_cons_of_neg (by simp [hx])]

/-- `dropWhile` keeps the last element, unless it drops everything. -/
theorem getLast?_dropWhile {α : Type} (p : α → Bool) (l : List α) :
    l.dropWhile p = [] ∨ (l.dropWhile p).getLast? = l.getLast? := by
  induction l with
  | nil => exact Or.inl rfl
  | cons a t ih =>
    by_cases hpa : p a = true
    · rw [List.dropWhile_cons_of_pos hpa]
      cases ht : t.dropWhile p with
      | nil => exact Or.inl rfl
      | cons b u =>
        rcases ih with h | h
        · rw [ht] at h; cases h
        · right
          rw [ht] at h
          rw [h]
          cases t with
          | nil => simp [List.dropWhile] at ht
          | cons c v => simp
    · right
      rw [List.dropWhile_cons_of_neg (by simpa using hpa)]

/-- `jsTrim` is idempotent. -/
theorem jsTrim_idem (s : Str) : jsTrim (jsTrim s) = jsTrim s := by
  have hfront : (jsTrim s).dropWhile isJsWs = jsTrim s := by
    cases hw : jsTrim s with
    | nil => simp
    | cons x xs =>
      have hco : ((s.dropWhile isJsWs).reverse.dropWhile isJsWs) ≠ [] := by
        intro hnil
        have : jsTrim s = [] := by
          unfold jsTrim
          rw [hnil]
          rfl
        rw [hw] at this
        cases this
      have hhead : (jsTrim s).head? = some x := by rw [hw]; rfl
      have hh2 : ((s.dropWhile isJsWs).reverse.dropWhile isJsWs).getLast? = some x := by
        have : (jsTrim s).head? =
            ((s.dropWhile isJsWs).reverse.dropWhile isJsWs).getLast? := by
          unfold jsTrim
          rw [List.head?_reverse]
        rw [this] at hhead
        exact hhead
      rcases getLast?_dropWhile isJsWs (s.dropWhile isJsWs).reverse with h | h
      · exact absurd h hco
      · rw [h, List.getLast?_reverse] at hh2
        cases hA : s.dropWhile isJsWs with
        | nil => rw [hA] at hh2; cases hh2
        | cons y ys =>
          rw [hA] at hh2
          have hy : y = x := by
            have : some y = some x := hh2
            cases this; rfl
          have hpx : isJsWs x = false := by
            rw [← hy]
            exact dropWhile_head_false isJsWs s y ys hA
          rw [List.dropWhile_cons_of_neg (by simp [hpx])]
  have hback : (jsTrim s).reverse.dropWhile isJsWs = (jsTrim s).reverse := by
    have : (jsTrim s).reverse = (s.dropWhile isJsWs).reverse.dropWhile isJsWs := by
      unfold jsTrim
      rw [List.reverse_reverse]
    rw [this]
    exact dropWhile_idem isJsWs (s.dropWhile isJsWs).reverse
  show (((jsTrim s).dropWhile isJsWs).reverse.dropWhile isJsWs).reverse = jsTrim s
  rw [hfront, hback, List.reverse_reverse]

/-- Every chunk flushed by the accumulation loop is a trimmed string. -/
theorem buildChunksAux_mem_trim (chunkSize : Nat) (sentences : List Str) :
    ∀ cur c, c ∈ buildChunksAux chunkSize sentences cur → ∃ d, c = jsTrim d := by
  induction sentences with
  | nil =>
    intro cur c hc
    unfold buildChunksAux at hc
    by_cases hcur : cur.isEmpty
    · simp [hcur] at hc
    · simp [hcur] at hc
      exact ⟨cur, hc⟩
  | cons sentence rest ih =>
    intro cur c hc
    unfold buildChunksAux at hc
    by_cases hcond :
        (decide (chunkSize < cur.length + sentence.length) && !cur.isEmpty) = true
    · rw [if_pos hcond] at hc
      rcases List.mem_cons.mp hc with h | h
      · exact ⟨cur, h⟩
      · exact ih sentence c h
    · rw [if_neg hcond] at hc
      exact ih _ c hc

/-- The empty query is a substring of everything, as in JavaScript. -/
theorem jsIncludes_nil (hay : Str) : jsIncludes [] hay = true := by
  cases hay <;> rfl

/-- Splitting a filtered list off a stable insertion under `scoreRel`:
inserting an element only ever places it in front of strictly greater
scores, so the fixed-score fibre gains the element at the front iff the
element carries that score. -/
theorem filter_score_orderedInsert (s : Nat) (a : Chunk × Nat) (l : List (Chunk × Nat)) :
    (List.orderedInsert scoreRel a l).filter (fun p => p.2 == s) =
      if a.2 == s then a :: l.filter (fun p => p.2 == s)
      else l.filter (fun p => p.2 == s) := by
  induction l with
  | nil =>
    by_cases has : (a.2 == s) = true <;>
      simp [List.orderedInsert, List.filter_cons, has]
  | cons b t ih =>
    show (if scoreRel a b then a :: b :: t else b :: List.orderedInsert scoreRel a t).filter _ = _
    by_cases hr : scoreRel a b
    · rw [if_pos hr]
      by_cases has : (a.2 == s) = true <;> simp [List.filter_cons, has]
    · rw [if_neg hr]
      rw [List.filter_cons, ih]
      by_cases has : (a.2 == s) = true
      · have hbs : (b.2 == s) = false := by
          have hlt : a.2 < b.2 := by
            have : ¬ b.2 ≤ a.2 := hr
            omega
          have heq : a.2 = s := by simpa using has
          simp only [beq_eq_false_iff_ne, ne_eq]
          omega
        simp [has, hbs, List.filter_cons]
      · by_cases hbs : (b.2 == s) = true <;> simp [has, hbs, List.filter_cons]

/-- Stability of the descending score sort: the fibre of any fixed score
is untouched by sorting, so equal-score entries keep their input order. -/
theorem filter_score_sortByScoreDesc (s : Nat) (l : List (Chunk × Nat)) :
    (sortByScoreDesc l).filter (fun p => p.2 == s) = l.filter (fun p => p.2 == s) := by
  induction l with
  | nil => rfl
  | cons a t ih =>
    show (List.orderedInsert scoreRel a (List.insertionSort scoreRel t)).filter _ = _
    rw [filter_score_orderedInsert]
    by_cases has : (a.2 == s) = true <;>
      simp only [has, if_true, if_false, List.filter_cons] <;>
      rw [show (List.insertionSort scoreRel t).filter (fun p => p.2 == s) =
            (sortByScoreDesc t).filter (fun p => p.2 == s) from rfl, ih]

/-- The descending score sort sorts. -/
theorem sorted_sortByScoreDesc (l : List (Chunk × Nat)) :
    (sortByScoreDesc l).Pairwise scoreRel :=
  List.sorted_insertionSort scoreRel l

/-- Filtering a prefix produces a prefix of the filtered list. -/
theorem filter_take_isPrefix {α : Type} (p : α → Bool) (l : List α) (k : Nat) :
    List.IsPrefix ((l.take k).filter p) (l.filter p) := by
  conv_rhs => rw [← List.take_append_drop k l]
  rw [List.filter_append]
  exact List.prefix_append _ _

/-- Elements produced by a successful `mapOpt` come from the input. -/
theorem mapOpt_mem {α β : Type} (f : α → Option β) (xs : List α) (ys : List β)
    (h : mapOpt f xs = some ys) : ∀ y ∈ ys, ∃ x ∈ xs, f x = some y := by
  induction xs generalizing ys with
  | nil =>
    intro y hy
    unfold mapOpt at h
    cases h
    cases hy
  | cons a t ih =>
    intro y hy
    unfold mapOpt at h
    cases hfa : f a with
    | none => rw [hfa] at h; cases h
    | some b =>
      rw [hfa] at h
      cases hmt : mapOpt f t with
      | none => rw [hmt] at h; cases h
      | some zs =>
        rw [hmt] at h
        have hys : b :: zs = ys := by simpa using h
        rcases List.mem_cons.mp (hys ▸ hy) with hb | hz
        · exact ⟨a, by simp, by rw [hfa, hb]⟩
        · rcases ih zs hmt y hz with ⟨x, hx, hfx⟩
          exact ⟨x, by simp [hx], hfx⟩

/-- `mapOpt` succeeds pointwise when every element succeeds. -/
theorem mapOpt_eq_some {α β : Type} (f : α → Option β) (g : α → β) (xs : List α)
    (h : ∀ x ∈ xs, f x = some (g x)) : mapOpt f xs = some (xs.map g) := by
  induction xs with
  | nil => rfl
  | cons a t ih =>
    unfold mapOpt
    rw [h a (by simp), ih (fun x hx => h x (by simp [hx]))]
    rfl

/-! ## Claim C6 -/

/-- C6 (confirmed): for every input text and every `targetSize > 0`, no
chunk output by the Chunker has trimmed length at most 50 characters, and
the empty input text yields an empty chunk sequence. -/
theorem C6_chunk_min_length (text : Str) (targetSize : Nat) (h : 0 < targetSize) :
    (∀ c ∈ splitTextIntoChunks text targetSize, ¬(jsTrim c).length ≤ 50) ∧
      splitTextIntoChunks [] targetSize = [] := by
  constructor
  · intro c hc
    unfold splitTextIntoChunks at hc
    have hmem := List.mem_filter.mp hc
    have hlen : 50 < c.length := by simpa using hmem.2
    rcases buildChunksAux_mem_trim targetSize (splitSentences text) [] c hmem.1 with ⟨d, hd⟩
    have hfix : jsTrim c = c := by rw [hd, jsTrim_idem]
    rw [hfix]
    omega
  · unfold splitTextIntoChunks splitSentences
    simp [splitSentencesAux, buildChunksAux]

/-- Witness for C6 at a concrete text and target size. -/
theorem C6_chunk_min_length_witness :
    0 < 500 ∧
      ((∀ c ∈ splitTextIntoChunks
          "This sentence is deliberately written to exceed fifty characters. Ok.".toList 500,
          ¬(jsTrim c).length ≤ 50) ∧
        splitTextIntoChunks [] 500 = []) :=
  ⟨by decide, C6_chunk_min_length
    "This sentence is deliberately written to exceed fifty characters. Ok.".toList 500
    (by decide)⟩

/-! ## Claim C10 -/

/-- C10 (confirmed): on a non-empty corpus the Keyword Scorer answers the
empty query with the first `min k (corpus size)` chunks in insertion
order — every chunk matches, because every content contains the empty
string; the empty query is not rejected or special-cased. -/
theorem C10_empty_query_keyword (db : List Document) (k : Nat)
    (h : allChunksOf db ≠ []) :
    performKeywordSearch db [] k =
        ((allChunksOf db).take k).map (fun c => { chunk := c, score := none }) ∧
      (performKeywordSearch db [] k).length = min k (allChunksOf db).length := by
  have heq : performKeywordSearch db [] k =
      ((allChunksOf db).take k).map (fun c => ({ chunk := c, score := none } : ScoredResult)) := by
    unfold performKeywordSearch
    rw [if_neg (by simpa [List.isEmpty_iff] using h)]
    rw [List.filter_eq_self.mpr (fun c _ => jsIncludes_nil (lowerStr c.content))]
  refine ⟨heq, ?_⟩
  rw [heq]
  simp [List.length_take]

/-- Witness for C10 on a two-chunk corpus with `k = 1`. -/
theorem C10_empty_query_keyword_witness :
    allChunksOf dbBeta ≠ [] ∧
      (performKeywordSearch dbBeta [] 1 =
          ((allChunksOf dbBeta).take 1).map (fun c => { chunk := c, score := none }) ∧
        (performKeywordSearch dbBeta [] 1).length = min 1 (allChunksOf dbBeta).length) :=
  ⟨by decide, C10_empty_query_keyword dbBeta 1 (by decide)⟩

/-! ## Claim C5 -/

/-- C5 (counterexample): a matching keyword result carries **no** score —
the scorer returns the stored chunk objects unchanged — contradicting the
claimed constant score 1 (and there is no strategy tag anywhere). -/
theorem C5_counterexample :
    performKeywordSearch dbAlpha "alpha".toList 5 = [{ chunk := chunkAlpha, score := none }] ∧
      (performKeywordSearch dbAlpha "alpha".toList 5).map ScoredResult.score = [none] := by
  decide

/-- C5 (corrected): the Keyword Scorer returns exactly the case-insensitive
substring matches, in corpus order, truncated to the first `k` — but as the
bare stored chunks, with no score attached (and no strategy tag). -/
theorem C5_keyword_contract (db : List Document) (query : Str) (k : Nat) :
    performKeywordSearch db query k =
        (((allChunksOf db).filter
            (fun c => jsIncludes (lowerStr query) (lowerStr c.content))).take k).map
          (fun c => { chunk := c, score := none }) ∧
      ∀ r ∈ performKeywordSearch db query k, r.score = none := by
  have heq : performKeywordSearch db query k =
      (((allChunksOf db).filter
          (fun c => jsIncludes (lowerStr query) (lowerStr c.content))).take k).map
        (fun c => ({ chunk := c, score := none } : ScoredResult)) := by
    unfold performKeywordSearch
    by_cases hemp : (allChunksOf db).isEmpty = true
    · rw [if_pos hemp, List.isEmpty_iff.mp hemp]
      simp
    · rw [if_neg hemp]
  refine ⟨heq, ?_⟩
  intro r hr
  rw [heq] at hr
  rcases List.mem_map.mp hr with ⟨c, _, hc⟩
  rw [← hc]

/-! ## Claim C4 -/

/-- C4 (counterexample): uploading `a.txt` twice registers two documents
with the same name — no `DuplicateNameError` exists and the second
document is added, contradicting the claim. -/
theorem C4_counterexample :
    (uploadFile (uploadFile emptyState fileA) fileA).documentDatabase.map Document.name =
        ["a.txt".toList, "a.txt".toList] ∧
      (uploadFile (uploadFile emptyState fileA) fileA).documentDatabase.length = 2 := by
  decide

/-- C4 (corrected): `addDocument` performs no duplicate-name check at all:
for every store state, uploading a text file appends the processed
document to both lists unconditionally, even when the name exists. -/
theorem C4_add_always_appends (st : AppState) (f : UploadFile)
    (h : f.ftype = "text/plain".toList) :
    (uploadFile st f).documentDatabase = st.documentDatabase ++ [processDocument f] ∧
      (uploadFile st f).uploadedFiles = st.uploadedFiles ++ [processDocument f] := by
  have hsupp : isSupportedFile f = true := by
    unfold isSupportedFile
    rw [h]
    simp
  have hproc : (processDocument f).processed = true := by
    unfold processDocument
    rw [if_neg (by rw [h]; decide)]
  unfold uploadFile
  simp [hsupp, hproc]

/-- Witness for C4: appending a duplicate of `a.txt` onto a state that
already holds a document named `a.txt`. -/
theorem C4_add_always_appends_witness :
    fileA.ftype = "text/plain".toList ∧
      ((uploadFile stateAlpha fileA).documentDatabase =
          stateAlpha.documentDatabase ++ [processDocument fileA] ∧
        (uploadFile stateAlpha fileA).uploadedFiles =
          stateAlpha.uploadedFiles ++ [processDocument fileA]) :=
  ⟨by decide, C4_add_always_appends stateAlpha fileA (by decide)⟩

/-! ## Claim C8 -/

/-- C8 (confirmed): removing a stored document removes every one of its
chunks from the corpus — after `removeFile`, no chunk of `allChunks` has
the removed document's name as its source (using the invariant that every
stored chunk's back-reference names its owning document). -/
theorem C8_cascade_delete (st : AppState) (idx : Nat) (f : Document) (st2 : AppState)
    (hinv : sourceInv st.documentDatabase)
    (hidx : st.uploadedFiles[idx]? = some f)
    (hrm : removeFile st idx = some st2) :
    ∀ c ∈ allChunksOf st2.documentDatabase, c.source ≠ f.name := by
  intro c hc
  unfold removeFile at hrm
  rw [hidx] at hrm
  cases hrm
  rcases List.mem_flatMap.mp hc with ⟨d, hd, hcd⟩
  have hdmem := List.mem_filter.mp hd
  have hne : d.name ≠ f.name := by simpa using hdmem.2
  have hsrc : c.source = d.name := hinv d hdmem.1 c hcd
  rw [hsrc]
  exact hne

/-- Witness for C8: removing `a.txt` from a two-document state leaves the
beta chunks, whose source is not the removed name. -/
theorem C8_cascade_delete_witness : chunkBeta1.source ≠ docAlpha.name :=
  C8_cascade_delete stateTwo 0 docAlpha stateTwoAfter (by decide) (by decide) (by decide)
    chunkBeta1 (by decide)

/-! ## Claim C1 -/

/-- C1 (counterexample): the unrecognized mode `"bogus"` does not fail —
the `default:` label of the `switch` dispatches it to the hybrid search,
which returns results. -/
theorem C1_counterexample :
    performSearch dbAlpha "bogus".toList "alpha".toList = SearchOutcome.results resAlpha ∧
      performSearch dbAlpha "bogus".toList "alpha".toList =
        liftSearch (performHybridSearch dbAlpha "alpha".toList 5) := by
  decide

/-- C1 (corrected): for a non-blank query, `"smart"` dispatches to the
Hybrid Merger, `"vector"` to the Term-Frequency Scorer, `"keyword"` to the
Keyword Scorer — and **every** other mode value also dispatches to the
Hybrid Merger through the `default:` branch; no `InvalidModeError` exists
(and the facade always uses `k = 5`). -/
theorem C1_dispatch_amended (db : List Document) (mode query : Str)
    (hq : jsTrim query ≠ []) :
    performSearch db "smart".toList query = liftSearch (performHybridSearch db query 5) ∧
      performSearch db "vector".toList query = liftSearch (performVectorSearch db query 5) ∧
      performSearch db "keyword".toList query =
        SearchOutcome.results (performKeywordSearch db query 5) ∧
      (mode ≠ "vector".toList → mode ≠ "keyword".toList →
        performSearch db mode query = liftSearch (performHybridSearch db query 5)) := by
  have hq3 : ¬((jsTrim query).isEmpty = true) := by
    simpa [List.isEmpty_iff] using hq
  refine ⟨?_, ?_, ?_, ?_⟩
  · unfold performSearch
    rw [if_neg hq3, if_neg (by decide), if_neg (by decide)]
  · unfold performSearch
    rw [if_neg hq3, if_pos rfl]
  · unfold performSearch
    rw [if_neg hq3, if_neg (by decide), if_pos rfl]
  · intro h1 h2
    unfold performSearch
    rw [if_neg hq3, if_neg h1, if_neg h2]

/-- Witness for C1: a concrete unknown mode on a concrete corpus lands in
the hybrid branch. -/
theorem C1_dispatch_witness :
    performSearch dbAlpha "m0de".toList "alpha".toList =
      liftSearch (performHybridSearch dbAlpha "alpha".toList 5) :=
  (C1_dispatch_amended dbAlpha "m0de".toList "alpha".toList (by decide)).2.2.2
    (by decide) (by decide)

/-! ## Regex versus literal counting -/

/-- A pattern of plain characters parses to the corresponding sequence of
literal atoms. -/
theorem parseRegexAux_plain :
    ∀ (t : Str), (∀ c ∈ t, isPlainChar c = true) → parseRegexAux t 0 = some (t.map RAtom.lit) := by
  intro t
  induction t with
  | nil => intro _; rfl
  | cons c rest ih =>
    intro h
    have hc : isPlainChar c = true := h c (by simp)
    unfold isPlainChar at hc
    simp only [Bool.not_eq_eq_eq_not, Bool.not_true, Bool.or_eq_false_iff,
      beq_eq_false_iff_ne, ne_eq] at hc
    unfold parseRegexAux
    rw [if_neg hc.1.1.1, if_neg hc.1.1.2, if_neg hc.1.2,
      if_neg (by simp [hc.2]), ih (fun x hx => h x (by simp [hx]))]
    rfl

/-- Matching a literal-atom pattern is exactly a prefix test. -/
theorem matchAt_lit_isSome :
    ∀ (pat s : Str), (matchAt (pat.map RAtom.lit) s).isSome = pat.isPrefixOf s := by
  intro pat
  induction pat with
  | nil => intro s; cases s <;> rfl
  | cons c pr ih =>
    intro s
    cases s with
    | nil => rfl
    | cons x xs =>
      show (if x = c then matchAt (pr.map RAtom.lit) xs else none).isSome =
        ((c == x) && pr.isPrefixOf xs)
      by_cases hx : x = c
      · rw [if_pos hx, ih xs]
        subst hx
        simp
      · rw [if_neg hx]
        have : (c == x) = false := by
          simp only [beq_eq_false_iff_ne, ne_eq]
          exact fun he => hx he.symm
        rw [this]
        rfl

/-- The fuelled match counters agree on literal patterns. -/
theorem countMatchesF_lit (pat : Str) :
    ∀ (fuel : Nat) (s : Str), countMatchesF (pat.map RAtom.lit) fuel s = countOccurF pat fuel s := by
  intro fuel
  induction fuel with
  | zero => intro s; rfl
  | succ fu ih =>
    intro s
    have hemp : (pat.map RAtom.lit).isEmpty = pat.isEmpty := by cases pat <;> rfl
    cases s with
    | nil =>
      simp only [countMatchesF, countOccurF]
      rw [matchAt_lit_isSome]
      cases pat <;> rfl
    | cons c cs =>
      simp only [countMatchesF, countOccurF]
      rw [matchAt_lit_isSome, hemp, List.length_map]
      by_cases hp : pat.isPrefixOf (c :: cs) = true
      · rw [if_pos hp, if_pos hp]
        by_cases he : pat.isEmpty = true
        · rw [if_pos he, if_pos he, ih]
        · rw [if_neg he, if_neg he, ih]
      · rw [if_neg hp, if_neg hp, ih]

/-- Regex counting of a literal pattern is literal occurrence counting. -/
theorem countMatches_lit (pat s : Str) :
    countMatches (pat.map RAtom.lit) s = countOccur pat s :=
  countMatchesF_lit pat (s.length + 1) s

/-- On plain patterns, `match(new RegExp(word, 'g')).length` succeeds and
counts exactly the literal occurrences. -/
theorem regexCountG_plain (t s : Str) (h : ∀ c ∈ t, isPlainChar c = true) :
    regexCountG t s = some (countOccur t s) := by
  unfold regexCountG parseRegex
  rw [parseRegexAux_plain t h]
  simp [countMatches_lit]

/-- On plain query terms, a chunk's regex score is its literal score. -/
theorem chunkScore_plain (terms : List Str) (content : Str)
    (h : ∀ t ∈ terms, ∀ c ∈ t, isPlainChar c = true) :
    chunkScore terms content = some (litChunkScore terms content) := by
  unfold chunkScore litChunkScore
  rw [mapOpt_eq_some (fun t => regexCountG t content) (fun t => countOccur t content) terms
      (fun t ht => regexCountG_plain t content (h t ht))]
  rfl

/-! ## Claim C2 -/

/-- C2 (counterexample): the query `"."` is compiled as a regex, so a
chunk containing no literal dot at all still scores 2 (its length) and is
returned — under the claimed literal counting its score would be 0 and it
would be excluded. -/
theorem C2_counterexample :
    performVectorSearch dbXY ".".toList 5 = some [{ chunk := chunkXY, score := some 2 }] ∧
      litChunkScore (splitWs (lowerStr ".".toList)) (lowerStr chunkXY.content) = 0 := by
  decide

/-- C2 (corrected): whenever every whitespace-separated lower-cased query
term consists of regex-neutral characters, the Term-Frequency Scorer
computes exactly the specification's literal-occurrence scoring (duplicate
terms counted separately, zero scores excluded, stable descending order,
truncation to `k`), as captured by `specVectorSearch`. -/
theorem C2_vector_literal_refinement (db : List Document) (query : Str) (k : Nat)
    (h : ∀ t ∈ splitWs (lowerStr query), ∀ c ∈ t, isPlainChar c = true) :
    performVectorSearch db query k = some (specVectorSearch db query k) := by
  unfold performVectorSearch specVectorSearch
  by_cases hemp : (allChunksOf db).isEmpty = true
  · rw [if_pos hemp, List.isEmpty_iff.mp hemp]
    simp [sortByScoreDesc, List.insertionSort]
  · rw [if_neg hemp]
    unfold vectorScored
    rw [mapOpt_eq_some _
        (fun c => (c, litChunkScore (splitWs (lowerStr query)) (lowerStr c.content)))
        (allChunksOf db)
        (fun c _ => by rw [chunkScore_plain _ _ h]; rfl)]
    rfl

/-- Witness for C2: the specification's Scenario 2 — the query
`"revenue revenue"` scores the revenue chunk 2 (once per term instance). -/
theorem C2_vector_literal_refinement_witness :
    (∀ t ∈ splitWs (lowerStr "revenue revenue".toList), ∀ c ∈ t, isPlainChar c = true) ∧
      performVectorSearch dbRevenue "revenue revenue".toList 5 =
        some (specVectorSearch dbRevenue "revenue revenue".toList 5) ∧
      specVectorSearch dbRevenue "revenue revenue".toList 5 =
        [{ chunk := chunkRevenue, score := some 2 }] :=
  ⟨by decide,
    C2_vector_literal_refinement dbRevenue "revenue revenue".toList 5 (by decide),
    by decide⟩

/-! ## Claim C9 -/

/-- C9 (confirmed): the vector-mode scorer is not total — on a non-empty
corpus the query `"("` makes `new RegExp` throw a `SyntaxError` (modelled
by `none`), and the term `"."` is matched as a pattern, scoring 2 on the
dotless content `"qw"` whose literal dot count is 0. -/
theorem C9_regex_semantics :
    performVectorSearch dbQW "(".toList 5 = none ∧
      parseRegex "(".toList = none ∧
      performVectorSearch dbQW ".".toList 5 = some [{ chunk := chunkQW, score := some 2 }] ∧
      countOccur ".".toList (lowerStr chunkQW.content) = 0 := by
  decide

/-! ## Claim C7 -/

/-- C7 (confirmed): the Term-Frequency Scorer's output is sorted by score
descending — a strictly greater score always comes first — and for every
fixed score value the results are a prefix of the corpus-ordered list of
positively-scored chunks with that score, so equal scores keep corpus
(insertion) order: the sort is stable. -/
theorem C7_vector_ordering (db : List Document) (query : Str) (k : Nat)
    (out : List ScoredResult) (hout : performVectorSearch db query k = some out) :
    out.Pairwise (fun a b => b.score.getD 0 ≤ a.score.getD 0) ∧
      ∀ (s : Nat) (sc : List (Chunk × Nat)), vectorScored db query = some sc →
        List.IsPrefix (out.filter (fun r => r.score == some s))
          ((sc.filter (fun p => p.2 == s && decide (0 < p.2))).map
            (fun p => { chunk := p.1, score := some p.2 })) := by
  unfold performVectorSearch at hout
  by_cases hemp : (allChunksOf db).isEmpty = true
  · rw [if_pos hemp] at hout
    have hnil : [] = out := by cases hout; rfl
    rw [← hnil]
    exact ⟨List.Pairwise.nil, fun s sc _ => by simp [List.nil_prefix]⟩
  · rw [if_neg hemp] at hout
    cases hvs : vectorScored db query with
    | none => rw [hvs] at hout; cases hout
    | some sc0 =>
      rw [hvs] at hout
      have hout2 : out = ((sortByScoreDesc (sc0.filter (fun p => decide (0 < p.2)))).take k).map
          (fun p => { chunk := p.1, score := some p.2 }) := by
        have := hout.symm
        simpa using this
      constructor
      · rw [hout2]
        apply List.pairwise_map.mpr
        have hsorted : (sortByScoreDesc (sc0.filter (fun p => decide (0 < p.2)))).Pairwise
            scoreRel := sorted_sortByScoreDesc _
        have htake := hsorted.sublist (List.take_sublist k _)
        exact htake.imp (fun hab => hab)
      · intro s sc hsc
        have hsceq : sc0 = sc := by cases hsc; rfl
        subst hsceq
        rw [hout2, List.filter_map]
        have hcomp : ((fun r : ScoredResult => r.score == some s) ∘
            (fun p : Chunk × Nat => ({ chunk := p.1, score := some p.2 } : ScoredResult))) =
            fun p : Chunk × Nat => p.2 == s := by
          funext p
          rfl
        rw [hcomp]
        apply List.IsPrefix.map
        have hpre := filter_take_isPrefix (fun p : Chunk × Nat => p.2 == s)
          (sortByScoreDesc (sc0.filter (fun p => decide (0 < p.2)))) k
        rw [filter_score_sortByScoreDesc, List.filter_filter] at hpre
        exact hpre

/-- Witness for C7: on `dbBeta` the twice-matching chunk precedes the
once-matching chunk, and the score-1 fibre is a prefix of the corpus-order
score-1 list. -/
theorem C7_vector_ordering_witness :
    outBeta.Pairwise (fun a b => b.score.getD 0 ≤ a.score.getD 0) ∧
      List.IsPrefix (outBeta.filter (fun r => r.score == some 1))
        ((scBeta.filter (fun p => p.2 == 1 && decide (0 < p.2))).map
          (fun p => { chunk := p.1, score := some p.2 })) :=
  ⟨(C7_vector_ordering dbBeta "beta".toList 5 outBeta (by decide)).1,
    (C7_vector_ordering dbBeta "beta".toList 5 outBeta (by decide)).2 1 scBeta (by decide)⟩

/-! ## Injectivity of the chunk id template -/

/-- Appending one digit multiplies the decoded value by ten. -/
theorem decodeDigits_append (xs : Str) (c : Char) :
    decodeDigits (xs ++ [c]) = 10 * decodeDigits xs + (c.toNat - 48) := by
  unfold decodeDigits
  rw [List.foldl_append]
  rfl

/-- Decoding inverts the fuelled decimal printer when the fuel bounds the
number of digits. -/
theorem decodeDigits_natToDigitsF :
    ∀ (fuel n : Nat), n < 10 ^ fuel → decodeDigits (natToDigitsF fuel n) = n := by
  intro fuel
  induction fuel with
  | zero =>
    intro n hn
    have hz : n = 0 := by simpa using hn
    subst hz
    rfl
  | succ fu ih =>
    intro n hn
    show decodeDigits (if n < 10 then [digitChar n]
      else natToDigitsF fu (n / 10) ++ [digitChar (n % 10)]) = n
    by_cases h10 : n < 10
    · rw [if_pos h10]
      have hd : ∀ m, m < 10 → (digitChar m).toNat = 48 + m := by decide
      show 10 * 0 + ((digitChar n).toNat - 48) = n
      rw [hd n h10]
      omega
    · rw [if_neg h10]
      rw [decodeDigits_append]
      have hdiv : n / 10 < 10 ^ fu := by
        rw [Nat.div_lt_iff_lt_mul (by omega)]
        calc n < 10 ^ (fu + 1) := hn
          _ = 10 ^ fu * 10 := by ring
      rw [ih (n / 10) hdiv]
      have hd : ∀ m, m < 10 → (digitChar m).toNat = 48 + m := by decide
      rw [hd (n % 10) (Nat.mod_lt _ (by omega))]
      omega

/-- Decoding inverts the decimal printer. -/
theorem decodeDigits_natToDigits (n : Nat) : decodeDigits (natToDigits n) = n := by
  apply decodeDigits_natToDigitsF
  calc n < 2 ^ n := Nat.lt_two_pow n
    _ ≤ 10 ^ n := Nat.pow_le_pow_left (by omega) n
    _ ≤ 10 ^ (n + 1) := Nat.pow_le_pow_right (by omega) (by omega)

/-- Decimal printing is injective. -/
theorem natToDigits_inj (m n : Nat) (h : natToDigits m = natToDigits n) : m = n := by
  have hm := decodeDigits_natToDigits m
  rw [h, decodeDigits_natToDigits] at hm
  exact hm.symm

/-- The decimal printer emits no underscore. -/
theorem natToDigitsF_no_underscore :
    ∀ (fuel n : Nat), ∀ c ∈ natToDigitsF fuel n, c ≠ '_' := by
  intro fuel
  induction fuel with
  | zero => intro n c hc; cases hc
  | succ fu ih =>
    intro n c hc
    have hd : ∀ m, m < 10 → digitChar m ≠ '_' := by decide
    by_cases h10 : n < 10
    · have heq : natToDigitsF (fu + 1) n = [digitChar n] := by
        show (if n < 10 then [digitChar n]
          else natToDigitsF fu (n / 10) ++ [digitChar (n % 10)]) = _
        rw [if_pos h10]
      rw [heq] at hc
      have hce : c = digitChar n := by simpa using hc
      rw [hce]
      exact hd n h10
    · have heq : natToDigitsF (fu + 1) n =
          natToDigitsF fu (n / 10) ++ [digitChar (n % 10)] := by
        show (if n < 10 then [digitChar n]
          else natToDigitsF fu (n / 10) ++ [digitChar (n % 10)]) = _
        rw [if_neg h10]
      rw [heq] at hc
      rcases List.mem_append.mp hc with h1 | h2
      · exact ih (n / 10) c h1
      · have hce : c = digitChar (n % 10) := by simpa using h2
        rw [hce]
        exact hd _ (Nat.mod_lt _ (by omega))

/-- The decimal part of a chunk id contains no underscore. -/
theorem natToDigits_no_underscore (n : Nat) : ∀ c ∈ natToDigits n, c ≠ '_' :=
  natToDigitsF_no_underscore (n + 1) n

/-- `takeWhile` runs through a block of satisfying elements and stops at a
failing one. -/
theorem takeWhile_append_all {α : Type} (p : α → Bool) (l : List α) (y : α) (r : List α)
    (hl : ∀ x ∈ l, p x = true) (hy : p y = false) :
    (l ++ y :: r).takeWhile p = l := by
  induction l with
  | nil => simp [List.takeWhile_cons, hy]
  | cons a t ih =>
    have hpa := hl a (by simp)
    simp [List.takeWhile_cons, hpa, ih (fun x hx => hl x (by simp [hx]))]

/-- The chunk id template literal is injective: sources and indices are
recoverable from the id. -/
theorem mkId_inj (s1 s2 : Str) (n1 n2 : Nat) (h : mkId s1 n1 = mkId s2 n2) :
    s1 = s2 ∧ n1 = n2 := by
  have hrev := congrArg List.reverse h
  have hsplit : ∀ (s : Str) (n : Nat), (mkId s n).reverse =
      (natToDigits n).reverse ++ '_' :: ("knuhc_".toList ++ s.reverse) := by
    intro s n
    unfold mkId
    rw [List.reverse_append, List.reverse_append]
    rw [show chunkSep.reverse = '_' :: "knuhc_".toList from by decide]
    simp [List.append_assoc]
  rw [hsplit s1 n1, hsplit s2 n2] at hrev
  have htw : ∀ (n : Nat) (tail : Str),
      ((natToDigits n).reverse ++ '_' :: tail).takeWhile (fun c => !(c == '_')) =
        (natToDigits n).reverse := by
    intro n tail
    apply takeWhile_append_all
    · intro x hx
      have := natToDigits_no_underscore n x (List.mem_reverse.mp hx)
      simpa using this
    · simp
  have hdig : (natToDigits n1).reverse = (natToDigits n2).reverse := by
    rw [← htw n1 ("knuhc_".toList ++ s1.reverse), ← htw n2 ("knuhc_".toList ++ s2.reverse), hrev]
  have hn : n1 = n2 := by
    apply natToDigits_inj
    have := congrArg List.reverse hdig
    simpa using this
  subst hn
  refine ⟨?_, rfl⟩
  have hs : s1 ++ (chunkSep ++ natToDigits n1) = s2 ++ (chunkSep ++ natToDigits n1) := by
    have h2 : s1 ++ chunkSep ++ natToDigits n1 = s2 ++ chunkSep ++ natToDigits n1 := h
    simpa [List.append_assoc] using h2
  exact List.append_cancel_right hs

/-! ## Deduplication lemmas -/

/-- First-occurrence deduplication yields pairwise distinct keys, none of
them previously seen. -/
theorem dedupAux_pairwise {κ : Type} (key : ScoredResult → κ) [DecidableEq κ] :
    ∀ (l : List ScoredResult) (seen : List κ),
      (dedupAux key l seen).Pairwise (fun a b => key a ≠ key b) ∧
        ∀ x ∈ dedupAux key l seen, key x ∉ seen := by
  intro l
  induction l with
  | nil =>
    intro seen
    exact ⟨List.Pairwise.nil, fun x hx => absurd hx (List.not_mem_nil x)⟩
  | cons a t ih =>
    intro seen
    unfold dedupAux
    by_cases hs : key a ∈ seen
    · rw [if_pos hs]
      exact ih seen
    · rw [if_neg hs]
      rcases ih (key a :: seen) with ⟨hpw, hnot⟩
      refine ⟨List.Pairwise.cons ?_ hpw, ?_⟩
      · intro b hb heq
        exact hnot b hb (heq ▸ List.mem_cons_self _ _)
      · intro x hx
        rcases List.mem_cons.mp hx with hxa | hxt
        · exact hxa ▸ hs
        · exact fun hmem => hnot x hxt (List.mem_cons_of_mem _ hmem)

/-- Two deduplications agree when their keys identify the same elements
and their seen-lists cover the same elements. -/
theorem dedupAux_congr {κ1 κ2 : Type} (f : ScoredResult → κ1) (g : ScoredResult → κ2)
    [DecidableEq κ1] [DecidableEq κ2] :
    ∀ (l : List ScoredResult) (seenF : List κ1) (seenG : List κ2),
      (∀ x ∈ l, (f x ∈ seenF ↔ g x ∈ seenG)) →
      (∀ x ∈ l, ∀ y ∈ l, (f x = f y ↔ g x = g y)) →
      dedupAux f l seenF = dedupAux g l seenG := by
  intro l
  induction l with
  | nil => intro seenF seenG _ _; rfl
  | cons a t ih =>
    intro seenF seenG hseen hkey
    unfold dedupAux
    by_cases hf : f a ∈ seenF
    · rw [if_pos hf, if_pos ((hseen a (by simp)).mp hf)]
      exact ih seenF seenG (fun x hx => hseen x (by simp [hx]))
        (fun x hx y hy => hkey x (by simp [hx]) y (by simp [hy]))
    · rw [if_neg hf, if_neg (fun hg => hf ((hseen a (by simp)).mpr hg))]
      congr 1
      apply ih
      · intro x hx
        constructor
        · intro hmem
          rcases List.mem_cons.mp hmem with he | hm
          · exact List.mem_cons.mpr (Or.inl ((hkey x (by simp [hx]) a (by simp)).mp he))
          · exact List.mem_cons.mpr (Or.inr ((hseen x (by simp [hx])).mp hm))
        · intro hmem
          rcases List.mem_cons.mp hmem with he | hm
          · exact List.mem_cons.mpr (Or.inl ((hkey x (by simp [hx]) a (by simp)).mpr he))
          · exact List.mem_cons.mpr (Or.inr ((hseen x (by simp [hx])).mpr hm))
      · intro x hx y hy
        exact hkey x (by simp [hx]) y (by simp [hy])

/-- On well-formed chunks, equal ids mean equal identities and back. -/
theorem wf_id_iff_key (c1 c2 : Chunk) (h1 : wfChunk c1) (h2 : wfChunk c2) :
    c1.id = c2.id ↔ chunkKey c1 = chunkKey c2 := by
  unfold wfChunk at h1 h2
  unfold chunkKey
  rw [h1, h2]
  constructor
  · intro h
    rcases mkId_inj _ _ _ _ h with ⟨hs, hn⟩
    rw [hs, hn]
  · intro h
    have hs : c1.source = c2.source := congrArg Prod.fst h
    have hn : c1.metadata.chunk_index = c2.metadata.chunk_index := congrArg Prod.snd h
    rw [hs, hn]

/-! ## Provenance of search results -/

/-- Every vector-search result is a corpus chunk. -/
theorem vector_result_chunk_mem (db : List Document) (query : Str) (k : Nat)
    (out : List ScoredResult) (hout : performVectorSearch db query k = some out) :
    ∀ r ∈ out, r.chunk ∈ allChunksOf db := by
  unfold performVectorSearch at hout
  by_cases hemp : (allChunksOf db).isEmpty = true
  · rw [if_pos hemp] at hout
    have : [] = out := by cases hout; rfl
    rw [← this]
    intro r hr
    cases hr
  · rw [if_neg hemp] at hout
    cases hvs : vectorScored db query with
    | none => rw [hvs] at hout; cases hout
    | some sc =>
      rw [hvs] at hout
      have hout2 : out = ((sortByScoreDesc (sc.filter (fun p => decide (0 < p.2)))).take k).map
          (fun p => { chunk := p.1, score := some p.2 }) := by
        have := hout.symm
        simpa using this
      intro r hr
      rw [hout2] at hr
      rcases List.mem_map.mp hr with ⟨p, hp, hwrap⟩
      have hp2 : p ∈ sortByScoreDesc (sc.filter (fun q => decide (0 < q.2))) :=
        List.mem_of_mem_take hp
      have hp3 : p ∈ sc.filter (fun q => decide (0 < q.2)) :=
        (List.mem_insertionSort scoreRel).mp hp2
      have hp4 : p ∈ sc := (List.mem_filter.mp hp3).1
      rcases mapOpt_mem _ (allChunksOf db) sc hvs p hp4 with ⟨c, hc, hfc⟩
      have hp1 : p.1 = c := by
        cases hcs : chunkScore (splitWs (lowerStr query)) (lowerStr c.content) with
        | none => rw [hcs] at hfc; cases hfc
        | some n =>
          rw [hcs] at hfc
          have : (c, n) = p := by simpa using hfc
          rw [← this]
      rw [← hwrap]
      show p.1 ∈ allChunksOf db
      rw [hp1]
      exact hc

/-- Every keyword-search result is a corpus chunk. -/
theorem keyword_result_chunk_mem (db : List Document) (query : Str) (k : Nat) :
    ∀ r ∈ performKeywordSearch db query k, r.chunk ∈ allChunksOf db := by
  intro r hr
  unfold performKeywordSearch at hr
  by_cases hemp : (allChunksOf db).isEmpty = true
  · rw [if_pos hemp] at hr
    cases hr
  · rw [if_neg hemp] at hr
    rcases List.mem_map.mp hr with ⟨c, hc, hwrap⟩
    have hcm : c ∈ allChunksOf db := (List.mem_filter.mp (List.mem_of_mem_take hc)).1
    rw [← hwrap]
    exact hcm

/-! ## Claim C3 -/

/-- C3 (confirmed): on a well-formed corpus the Hybrid Merger's output is
the concatenation of the term-frequency results (at full budget `k`)
followed by the keyword results (also at budget `k`), deduplicated by
chunk identity keeping the first occurrence — so a chunk found by both is
attributed to the term-frequency list — and truncated to `k`; hence no two
results share a (document name, chunk index) pair. -/
theorem C3_hybrid_dedup (db : List Document) (query : Str) (k : Nat)
    (tf out : List ScoredResult) (hwf : wfCorpus db)
    (hv : performVectorSearch db query k = some tf)
    (hh : performHybridSearch db query k = some out) :
    out = (dedupByIdentity (tf ++ performKeywordSearch db query k)).take k ∧
      out.Pairwise (fun a b => chunkKey a.chunk ≠ chunkKey b.chunk) := by
  unfold performHybridSearch at hh
  rw [hv] at hh
  have hout : out = (dedupById (tf ++ performKeywordSearch db query k)).take k := by
    have := hh.symm
    simpa using this
  have hLwf : ∀ r ∈ tf ++ performKeywordSearch db query k, wfChunk r.chunk := by
    intro r hrL
    rcases List.mem_append.mp hrL with h1 | h2
    · exact hwf _ (vector_result_chunk_mem db query k tf hv r h1)
    · exact hwf _ (keyword_result_chunk_mem db query k r h2)
  have hdedup : dedupById (tf ++ performKeywordSearch db query k) =
      dedupByIdentity (tf ++ performKeywordSearch db query k) := by
    unfold dedupById dedupByIdentity
    apply dedupAux_congr
    · intro x _
      simp
    · intro x hx y hy
      exact wf_id_iff_key _ _ (hLwf x hx) (hLwf y hy)
  constructor
  · rw [hout, hdedup]
  · rw [hout, hdedup]
    have hp := (dedupAux_pairwise (fun r => chunkKey r.chunk)
      (tf ++ performKeywordSearch db query k) []).1
    exact hp.sublist (List.take_sublist _ _)

/-- Witness for C3 on the concrete `dbAlpha` corpus: both scorers find the
alpha chunk and the merger keeps the term-frequency copy only. -/
theorem C3_hybrid_dedup_witness :
    resAlpha = (dedupByIdentity (resAlpha ++ performKeywordSearch dbAlpha "alpha".toList 5)).take 5 ∧
      resAlpha.Pairwise (fun a b => chunkKey a.chunk ≠ chunkKey b.chunk) :=
  C3_hybrid_dedup dbAlpha "alpha".toList 5 resAlpha resAlpha
    (by decide) (by decide) (by decide)

/-! ## The invariants hold on reachable states

The hypotheses `sourceInv` (used by C8) and `wfCorpus` (used by C3) are
established by `processDocument` and preserved by the only two operations
that mutate the store, so they hold in every reachable state. -/

/-- Chunk objects built by `processDocument` point back at their document
and carry the template-literal id. -/
theorem buildChunkObjs_props (name : Str) (total : Nat) :
    ∀ (cs : List Str) (i : Nat) (c : Chunk), c ∈ buildChunkObjs name total i cs →
      c.source = name ∧ wfChunk c := by
  intro cs
  induction cs with
  | nil => intro i c hc; cases hc
  | cons a t ih =>
    intro i c hc
    rcases List.mem_cons.mp hc with he | hm
    · subst he
      exact ⟨rfl, rfl⟩
    · exact ih (i + 1) c hm

/-- Every chunk of a processed document is well formed and names it. -/
theorem processDocument_inv (f : UploadFile) :
    ∀ c ∈ (processDocument f).chunks, c.source = (processDocument f).name ∧ wfChunk c := by
  unfold processDocument
  by_cases hp : f.ftype = "application/pdf".toList
  · rw [if_pos hp]
    intro c hc
    cases hc
  · rw [if_neg hp]
    intro c hc
    exact buildChunkObjs_props f.name _ _ 0 c hc

/-- `uploadFile` either leaves the database unchanged or appends the
processed document. -/
theorem uploadFile_db_cases (st : AppState) (f : UploadFile) :
    (uploadFile st f).documentDatabase = st.documentDatabase ∨
      (uploadFile st f).documentDatabase = st.documentDatabase ++ [processDocument f] := by
  unfold uploadFile
  by_cases hs : isSupportedFile f = true
  · rw [if_pos hs]
    by_cases hp : (processDocument f).processed = true
    · right
      simp [hp]
    · left
      simp [hp]
  · rw [if_neg hs]
    left
    rfl

/-- Upload preserves the back-reference invariant. -/
theorem uploadFile_sourceInv (st : AppState) (f : UploadFile)
    (h : sourceInv st.documentDatabase) : sourceInv (uploadFile st f).documentDatabase := by
  rcases uploadFile_db_cases st f with he | he <;> rw [he]
  · exact h
  · intro d hd
    rcases List.mem_append.mp hd with h1 | h2
    · exact h d h1
    · have hde : d = processDocument f := by simpa using h2
      subst hde
      intro c hc
      exact (processDocument_inv f c hc).1

/-- Upload preserves corpus well-formedness. -/
theorem uploadFile_wfCorpus (st : AppState) (f : UploadFile)
    (h : wfCorpus st.documentDatabase) : wfCorpus (uploadFile st f).documentDatabase := by
  rcases uploadFile_db_cases st f with he | he <;> rw [he]
  · exact h
  · intro c hc
    unfold allChunksOf at hc
    rw [List.flatMap_append] at hc
    rcases List.mem_append.mp hc with h1 | h2
    · exact h c h1
    · have hc2 : c ∈ (processDocument f).chunks := by simpa using h2
      exact (processDocument_inv f c hc2).2

/-- Removal preserves the back-reference invariant. -/
theorem removeFile_sourceInv (st : AppState) (idx : Nat) (st2 : AppState)
    (h : sourceInv st.documentDatabase) (hrm : removeFile st idx = some st2) :
    sourceInv st2.documentDatabase := by
  unfold removeFile at hrm
  cases hidx : st.uploadedFiles[idx]? with
  | none => rw [hidx] at hrm; cases hrm
  | some f =>
    rw [hidx] at hrm
    cases hrm
    intro d hd
    exact h d (List.mem_filter.mp hd).1

/-- Removal preserves corpus well-formedness. -/
theorem removeFile_wfCorpus (st : AppState) (idx : Nat) (st2 : AppState)
    (h : wfCorpus st.documentDatabase) (hrm : removeFile st idx = some st2) :
    wfCorpus st2.documentDatabase := by
  unfold removeFile at hrm
  cases hidx : st.uploadedFiles[idx]? with
  | none => rw [hidx] at hrm; cases hrm
  | some f =>
    rw [hidx] at hrm
    cases hrm
    intro c hc
    rcases List.mem_flatMap.mp hc with ⟨d, hd, hcd⟩
    have hdb : d ∈ st.documentDatabase := (List.mem_filter.mp hd).1
    exact h c (List.mem_flatMap.mpr ⟨d, hdb, hcd⟩)

/-- Both invariants hold initially. -/
theorem emptyState_inv :
    sourceInv emptyState.documentDatabase ∧ wfCorpus emptyState.documentDatabase := by
  constructor
  · intro d hd
    cases hd
  · intro c hc
    cases hc

end DocuQA
